import Mathlib

/-! # print_ip (src/print_ip.hpp)

A shallow embedding of the header `print_ip.hpp`: the four bodies of
`otus::impl::print_ip`, the helper `print_tuple`, the type traits
`is_container` and `is_tuple`, the overload resolution performed by the call
`impl::print_ip(value, int{})`, and the entry point `otus::print_ip`.

`std::cout` is modelled by explicit state passing: every body takes the
characters written so far and returns them extended by what it writes.
-/

namespace otus

/-! ## The output stream and stream insertion -/

/-- The characters written to `std::cout` so far, oldest first. -/
abbrev OStream := List Char

/-- Stream insertion of an unsigned integer, `std::cout << unsigned(..)`:
its decimal numeral (default formatting flags, width 0). -/
def insert_unsigned (n : Nat) : List Char :=
  Nat.toDigits 10 n

/-- Stream insertion of a value of a signed, non-character integer type
(`short`, `int`, `long`, ...): the decimal numeral, with a leading minus sign
for a negative value. -/
def insert_int : Int → List Char
  | Int.ofNat n => Nat.toDigits 10 n
  | Int.negSucc n => '-' :: Nat.toDigits 10 (n + 1)

/-- How `operator<<` writes an element of a container or tuple, by its type:
`number` for the non-character integer types (`short`, `int`, `long`,
`long long` and their unsigned counterparts), `character` for the character
types `char`, `signed char` (`int8_t`) and `unsigned char` (`uint8_t`). -/
inductive ElemKind where
  | number
  | character
  deriving DecidableEq, Repr

/-- Stream insertion of an element, `std::cout << item`, for an element of
value `v`: the decimal numeral for a non-character integer type, and for a
character type the single character whose code is the byte of `v` (a byte
`b` of the stream is written as the character with code `b`). -/
def insert_elem : ElemKind → Int → List Char
  | .number, v => insert_int v
  | .character, v => [Char.ofNat (v % 256).toNat]

namespace impl

/-! ## The overload bodies -/

/-- Body of `print_ip(T& value, int)` enabled by `is_container` (lines 33-39):
`for (auto&& item : value) std::cout << item << '.';` followed by
`std::cout << "\b \b\n"`. `elem` is the element type of the container. -/
def print_ip_container (elem : ElemKind) (value : List Int) (out : OStream) : OStream :=
  value.foldl (fun o item => o ++ insert_elem elem item ++ ['.']) out
    ++ ['\x08', ' ', '\x08', '\n']

/-- One operand of the fold expression of line 53, for index `I`:
`std::cout << (I == 0 ? "" : ".") << std::get<I>(_tup)`. Every position of
the tuple has its own element type. The index is in range for every `I` of
the index sequence; the default is never used. -/
def print_tuple_at (_tup : List (ElemKind × Int)) (o : OStream) (I : Nat) : OStream :=
  o ++ (if I == 0 then [] else ['.'])
    ++ insert_elem (_tup.getD I (.number, 0)).1 (_tup.getD I (.number, 0)).2

/-- The overload `print_tuple(const TupType&, std::index_sequence<I...>)`
(lines 50-55): the left fold over the comma operator visits the indices in
order, then a newline is written. -/
def print_tuple_seq (_tup : List (ElemKind × Int)) (I : List Nat) (out : OStream) : OStream :=
  I.foldl (print_tuple_at _tup) out ++ ['\n']

/-- The overload `print_tuple(const std::tuple<T...>&)` (lines 57-61): calls
the other one with `std::make_index_sequence<sizeof...(T)>`, the indices
`0, 1, ..., sizeof...(T) - 1`. -/
def print_tuple (_tup : List (ElemKind × Int)) (out : OStream) : OStream :=
  print_tuple_seq _tup (List.range _tup.length) out

/-- Body of `print_ip(T& value, int)` enabled by `is_tuple` (lines 68-71). -/
def print_ip_tuple (value : List (ElemKind × Int)) (out : OStream) : OStream :=
  print_tuple value out

/-- Body of `print_ip(T& value, int) -> decltype(value.c_str())`
(lines 78-82): `std::cout << value << '\n'`. -/
def print_ip_text (value : List Char) (out : OStream) : OStream :=
  out ++ value ++ ['\n']

/-- The number inserted for byte `i` (line 94):
`unsigned(static_cast<uint8_t>((value >> 8 * (i - 1)) & 0xFF))`.
`value` is the mathematical value of the (promoted) operand; `>>` on a
negative operand is the arithmetic shift, the shift amount `8 * (i - 1)` is
below the operand's width for every `i` of the loop, and the cast to
`uint8_t` reduces modulo `2 ^ 8`. -/
def numeric_byte (value : Int) (i : Nat) : Nat :=
  (Int.land (value >>> (8 * (i - 1))) 0xFF % 2 ^ 8).toNat

/-- The loop `for (size_t i = bytesAmount; i > 0; --i)` of lines 93-98,
started at `i`. -/
def print_ip_numeric_loop (value : Int) : Nat → OStream → OStream
  | 0, out => out
  | i + 1, out =>
    let out1 := out ++ insert_unsigned (numeric_byte value (i + 1))
    let out2 := if i + 1 ≠ 1 then out1 ++ ['.'] else out1
    print_ip_numeric_loop value i out2

/-- Body of `print_ip(T& value, long)` (lines 90-100); `bytesAmount` is
`sizeof(value)`. -/
def print_ip_numeric (bytesAmount : Nat) (value : Int) (out : OStream) : OStream :=
  print_ip_numeric_loop value bytesAmount out ++ ['\n']

/-! ## Static types, the traits and overload resolution -/

/-- The type `T` deduced for the parameter `T& value` of `impl::print_ip`, as
far as the overload set looks at it. `other` stands for any type that is not
an integer type, `std::string`, `std::vector`, `std::list` or `std::tuple`,
described by which expressions of the overload set are well-formed for it:
`value.c_str()`, the body of the text overload, and the shift-and-mask
expression of the numeric overload. `cv_const T` is `const T`, deduced when
the argument is a const lvalue. -/
inductive CppType where
  | integral (sizeof : Nat) (isSigned : Bool)
  | string
  | vector (elemInsertable : Bool)
  | list (elemInsertable : Bool)
  | tuple (arity : Nat) (elemsInsertable : Bool)
  | other (c_str text_body shift_mask : Bool)
  | cv_const (T : CppType)
  deriving DecidableEq, Repr

/-- The four function templates named `impl::print_ip`, in declaration
order. -/
inductive Overload where
  | container
  | tuple
  | text
  | numeric
  deriving DecidableEq, Repr

/-- The trait `is_container` (lines 19-26): the primary template is
`std::false_type`, the partial specialisations for `std::vector<Ts...>` and
`std::list<Ts...>` are `std::true_type`. A const-qualified type matches
neither specialisation. -/
def is_container : CppType → Bool
  | .vector _ => true
  | .list _ => true
  | _ => false

/-- The trait `is_tuple` (lines 43-47): true for `std::tuple<Ts...>` only. -/
def is_tuple : CppType → Bool
  | .tuple _ _ => true
  | _ => false

/-- Whether `value.c_str()` is well-formed, which is what the trailing return
type `decltype(value.c_str())` of line 79 tests. `std::string` has the const
member `c_str`; integer types, `std::vector`, `std::list` and `std::tuple`
have no such member. -/
def has_c_str : CppType → Bool
  | .string => true
  | .other c _ _ => c
  | .cv_const T => has_c_str T
  | _ => false

/-- Whether a candidate takes part in overload resolution for `T`: the first
two are removed by `std::enable_if_t` unless their trait holds, the third by
its trailing return type unless `value.c_str()` is well-formed, the fourth is
unconstrained. -/
def enabled (T : CppType) : Overload → Bool
  | .container => is_container T
  | .tuple => is_tuple T
  | .text => has_c_str T
  | .numeric => true

/-- Rank of the conversion of the tag argument `int{}` to the candidate's
second parameter: `0` for `int` (identity), `1` for `long` (an integral
conversion). The first parameter `T&` binds the lvalue directly in all four. -/
def tag_rank : Overload → Nat
  | .numeric => 1
  | _ => 0

/-- The candidates, in declaration order. -/
def candidates : List Overload :=
  [.container, .tuple, .text, .numeric]

/-- Overload resolution of `impl::print_ip(value, int{})` for `value` of type
`T`: the viable candidate that is better than every other viable one, where
a candidate is better when its tag conversion has the lower rank. `none`
when there is no such candidate (the call is ambiguous). -/
def resolve (T : CppType) : Option Overload :=
  let viable := candidates.filter (enabled T)
  match viable.filter (fun f => viable.all (fun g => g == f || tag_rank f < tag_rank g)) with
  | [f] => some f
  | _ => none

/-- Whether the body of the selected overload `f` is well-formed when
instantiated for `T`; bodies are not part of overload resolution, so a
failure here is a hard compile error. Pairs that `resolve` never produces
are given as `false`. -/
def body_ok : Overload → CppType → Bool
  | .container, .vector e => e
  | .container, .list e => e
  | .tuple, .tuple _ e => e
  | .text, .string => true
  | .text, .other _ t _ => t
  | .text, .cv_const T => body_ok .text T
  | .numeric, .integral _ _ => true
  | .numeric, .other _ _ s => s
  | .numeric, .cv_const T => body_ok .numeric T
  | _, _ => false

/-- The call `impl::print_ip(value, int{})` compiles for `T`. -/
def accepted (T : CppType) : Bool :=
  match resolve T with
  | some f => body_ok f T
  | none => false

end impl

/-! ## Values and the entry point -/

/-- The arguments of `print_ip`: an integer of `sizeof` bytes with its
mathematical value; a `std::string`; a `std::vector` or `std::list` with its
element type and the values of its elements; a `std::tuple` with the element
type and value of every position; and a value of any other type, given by
whether `value.c_str()` is well-formed, by the characters `std::cout << value`
writes when the body of the text overload is well-formed for it, and, when
the shift-and-mask expression is well-formed for it, by `sizeof(value)` and
the integer its operators `>>` and `&` act on (such as a class with
`operator>>`, or with a conversion to an integer type). -/
inductive Value where
  | integral (sizeof : Nat) (isSigned : Bool) (v : Int)
  | string (s : List Char)
  | vector (elem : ElemKind) (xs : List Int)
  | list (elem : ElemKind) (xs : List Int)
  | tuple (xs : List (ElemKind × Int))
  | other (c_str : Bool) (text : Option (List Char)) (numeric : Option (Nat × Int))

/-- The static type of a value (not const-qualified). -/
def Value.type : Value → impl.CppType
  | .integral n s _ => .integral n s
  | .string _ => .string
  | .vector _ _ => .vector true
  | .list _ _ => .list true
  | .tuple xs => .tuple xs.length true
  | .other c text numeric => .other c text.isSome numeric.isSome

/-- The entry point `otus::print_ip(T&& value)` (lines 107-110):
`impl::print_ip(value, int{})`, that is the body of the overload selected for
the static type of `value`. `none` when the call does not compile. -/
def print_ip (value : Value) (out : OStream) : Option OStream :=
  match impl.resolve value.type, value with
  | some .container, .vector elem xs => some (impl.print_ip_container elem xs out)
  | some .container, .list elem xs => some (impl.print_ip_container elem xs out)
  | some .tuple, .tuple xs => some (impl.print_ip_tuple xs out)
  | some .text, .string s => some (impl.print_ip_text s out)
  | some .text, .other _ (some text) _ => some (impl.print_ip_text text out)
  | some .numeric, .integral n _ v => some (impl.print_ip_numeric n v out)
  | some .numeric, .other _ _ (some (n, v)) => some (impl.print_ip_numeric n v out)
  | _, _ => none

/-! ## Notions used to state the properties -/

open impl

/-- Byte `k` of `v`, counted from the least significant one. -/
def byte_of (v k : Nat) : Nat :=
  v / 256 ^ k % 256

/-- The `n` low bytes of `v`, most significant first. -/
def bytes_be (n v : Nat) : List Nat :=
  (List.range n).reverse.map (byte_of v)

/-- The fields joined by `'.'`: a dot between two neighbours, none before the
first field and none after the last. -/
def dotted (fields : List (List Char)) : List Char :=
  ['.'].intercalate fields

/-- The fields the numeric loop writes when started at `i`: bytes `i` down
to `1`. -/
def numeric_fields (value : Int) (i : Nat) : List (List Char) :=
  (List.range i).reverse.map (fun k => insert_unsigned (numeric_byte value (k + 1)))

/-- The number whose big-endian base-256 digits are `bs`. -/
def from_bytes_be (bs : List Nat) : Nat :=
  bs.foldl (fun acc b => acc * 256 + b) 0

/-- The written characters are exactly one line: the last one is a newline
and there is no other newline. -/
def one_line (written : List Char) : Bool :=
  written.getLast? == some '\n' && written.count '\n' == 1

/-- The numbers the numeric loop inserts when started at `i`: bytes `i` down
to `1`. -/
def numeric_bytes (value : Int) (i : Nat) : List Nat :=
  (List.range i).reverse.map (fun k => numeric_byte value (k + 1))

/-- The line a call writes on an empty stream: the written characters
without the last one, the newline. -/
def line_of (value : Value) : Option (List Char) :=
  (print_ip value []).map List.dropLast

/-- The number a decimal numeral denotes. -/
def read_decimal (numeral : List Char) : Nat :=
  numeral.foldl (fun acc c => acc * 10 + (c.toNat - '0'.toNat)) 0

/-- Reading a line back: split it at `'.'`, read every field as a decimal
numeral, and take the fields as big-endian base-256 digits. -/
def decode_line (line : List Char) : Nat :=
  from_bytes_be ((line.splitOn '.').map read_decimal)

/-- An element is written as the newline character: it is of a character
type and its byte is 10. -/
def writes_newline (elem : ElemKind) (v : Int) : Bool :=
  elem == .character && v % 256 == 10

/-- An input of the four categories (integral value, `std::string`,
`std::vector` or `std::list`, `std::tuple`) that carries no newline
character: a string without a newline, a container or tuple none of whose
elements is written as the newline character. -/
def one_line_input : Value → Bool
  | .integral _ _ _ => true
  | .string s => !s.contains '\n'
  | .vector elem xs => xs.all (fun x => !writes_newline elem x)
  | .list elem xs => xs.all (fun x => !writes_newline elem x)
  | .tuple xs => xs.all (fun e => !writes_newline e.1 e.2)
  | .other _ _ _ => false

theorem ldiff_255 (m : Nat) : Nat.ldiff 255 m = 255 - m % 256 := by
  apply Nat.eq_of_testBit_eq
  intro i
  have h := Nat.testBit_two_pow_sub_succ (Nat.mod_lt m (by decide : 0 < 2 ^ 8)) i
  have e : 2 ^ 8 - (m % 2 ^ 8 + 1) = 255 - m % 256 := by omega
  rw [e] at h
  rw [h, Nat.testBit_ldiff, Nat.testBit_mod_two_pow]
  have : Nat.testBit 255 i = decide (i < 8) := Nat.testBit_two_pow_sub_one 8 i
  rw [this]
  by_cases hi : i < 8 <;> simp [hi]

theorem land_255 (x : Int) : Int.land x 0xFF = x % 256 := by
  cases x with
  | ofNat n =>
    show ((n &&& 255 : Nat) : Int) = (n : Int) % 256
    have := Nat.and_pow_two_sub_one_eq_mod n 8
    norm_num at this
    rw [this]; norm_cast
  | negSucc m =>
    show ((Nat.ldiff 255 m : Nat) : Int) = Int.negSucc m % 256
    rw [ldiff_255, Int.negSucc_emod m (by decide)]
    omega

theorem numeric_byte_eq (value : Int) (i : Nat) :
    numeric_byte value i = (value / 2 ^ (8 * (i - 1)) % 256).toNat := by
  unfold numeric_byte
  rw [land_255, Int.shiftRight_eq_div_pow]
  have : (256 : Int) ∣ 2 ^ 8 := by norm_num
  norm_num

theorem numeric_byte_natCast (v i : Nat) :
    numeric_byte (v : Int) (i + 1) = v / 256 ^ i % 256 := by
  rw [numeric_byte_eq]
  have : (256 : Nat) ^ i = 2 ^ (8 * i) := by rw [pow_mul]; norm_num
  rw [this]
  simp only [Nat.add_sub_cancel]
  have h : ((v : Int) / 2 ^ (8 * i) % 256) = ((v / 2 ^ (8 * i) % 256 : Nat) : Int) := by
    push_cast; rfl
  rw [h, Int.toNat_ofNat]

theorem ediv_emod_of_emod (v : Int) (a W : Nat) (h : a + 8 ≤ W) :
    (v % 2 ^ W) / 2 ^ a % 256 = v / 2 ^ a % 256 := by
  have hW : (2 : Int) ^ W = 2 ^ a * (256 * 2 ^ (W - a - 8)) := by
    have : W = a + (8 + (W - a - 8)) := by omega
    conv_lhs => rw [this]
    rw [pow_add, pow_add]; norm_num
  have hv : v = v % 2 ^ W + 2 ^ a * (256 * (2 ^ (W - a - 8) * (v / 2 ^ W))) := by
    have := (Int.emod_add_ediv v (2 ^ W)).symm
    rw [hW] at this ⊢
    conv_lhs => rw [this]
    ring
  conv_rhs => rw [hv]
  rw [Int.add_mul_ediv_left _ _ (by positivity), Int.add_mul_emod_self_left]

theorem dotted_nil : dotted [] = [] := rfl

theorem dotted_singleton (x : List Char) : dotted [x] = x := by
  simp [dotted, List.intercalate]

theorem dotted_cons_cons (x y : List Char) (ys : List (List Char)) :
    dotted (x :: y :: ys) = x ++ '.' :: dotted (y :: ys) := by
  simp [dotted, List.intercalate]

theorem dotted_cons (x : List Char) (ys : List (List Char)) :
    dotted (x :: ys) = x ++ (if ys = [] then [] else ['.']) ++ dotted ys := by
  cases ys with
  | nil => simp [dotted_singleton, dotted_nil]
  | cons y ys => simp [dotted_cons_cons]

theorem dotted_concat (xs : List (List Char)) (x : List Char) :
    dotted (xs ++ [x]) = dotted xs ++ (if xs = [] then [] else ['.']) ++ x := by
  induction xs with
  | nil => simp [dotted_singleton, dotted_nil]
  | cons y ys ih =>
    rw [List.cons_append, dotted_cons, ih, dotted_cons]
    cases ys <;> simp [dotted_nil]

theorem print_ip_numeric_loop_eq (value : Int) (i : Nat) (out : OStream) :
    print_ip_numeric_loop value i out = out ++ dotted (numeric_fields value i) := by
  induction i generalizing out with
  | zero => simp [print_ip_numeric_loop, numeric_fields, dotted_nil]
  | succ i ih =>
    rw [print_ip_numeric_loop]
    simp only [ih]
    have : numeric_fields value (i + 1)
        = insert_unsigned (numeric_byte value (i + 1)) :: numeric_fields value i := by
      simp [numeric_fields, List.range_succ]
    rw [this, dotted_cons]
    cases i with
    | zero => simp [numeric_fields]
    | succ j => simp [numeric_fields, List.range_succ]

theorem resolve_integral (n : Nat) (s : Bool) : resolve (.integral n s) = some .numeric := rfl

theorem print_ip_integral (n : Nat) (s : Bool) (v : Int) (out : OStream) :
    print_ip (.integral n s v) out = some (print_ip_numeric n v out) := rfl

theorem numeric_fields_natCast (v i : Nat) :
    numeric_fields (v : Int) i = (bytes_be i v).map insert_unsigned := by
  simp only [numeric_fields, bytes_be, List.map_map]
  apply List.map_congr_left
  intro k _
  simp [numeric_byte_natCast, byte_of]

theorem bytes_be_succ (n v : Nat) : bytes_be (n + 1) v = byte_of v n :: bytes_be n v := by
  simp [bytes_be, List.range_succ]

theorem foldl_bytes_be (n v a : Nat) :
    (bytes_be n v).foldl (fun acc b => acc * 256 + b) a = a * 256 ^ n + v % 256 ^ n := by
  induction n generalizing a with
  | zero => simp [bytes_be, Nat.mod_one]
  | succ n ih =>
    rw [bytes_be_succ, List.foldl_cons, ih, Nat.mod_pow_succ, byte_of]
    ring

theorem from_bytes_be_bytes_be (n v : Nat) (h : v < 256 ^ n) :
    from_bytes_be (bytes_be n v) = v := by
  rw [from_bytes_be, foldl_bytes_be, Nat.mod_eq_of_lt h]
  simp

theorem bytes_be_lt (n v b : Nat) (h : b ∈ bytes_be n v) : b < 256 := by
  simp only [bytes_be, List.mem_map] at h
  obtain ⟨k, _, rfl⟩ := h
  exact Nat.mod_lt _ (by decide)

theorem width_pow (w : Nat) (hw : w = 8 ∨ w = 16 ∨ w = 32 ∨ w = 64) :
    2 ^ w = 256 ^ (w / 8) := by
  rcases hw with rfl | rfl | rfl | rfl <;> norm_num

theorem numeric_fields_emod (v : Int) (n : Nat) :
    numeric_fields (v % 2 ^ (8 * n)) n = numeric_fields v n := by
  simp only [numeric_fields]
  apply List.map_congr_left
  intro k hk
  have hk' : k < n := by simpa using hk
  rw [numeric_byte_eq, numeric_byte_eq]
  simp only [Nat.add_sub_cancel]
  rw [ediv_emod_of_emod v (8 * k) (8 * n) (by omega)]

theorem twos_complement_pattern (w : Nat) (v : Int) (hw : 0 < w)
    (hv : -2 ^ (w - 1) ≤ v ∧ v < 2 ^ (w - 1)) :
    v % 2 ^ w = if v < 0 then v + 2 ^ w else v := by
  have h2 : (2 : Int) ^ w = 2 * 2 ^ (w - 1) := by
    have : w = (w - 1) + 1 := by omega
    conv_lhs => rw [this]
    rw [pow_succ]; ring
  have hp : (0 : Int) < 2 ^ (w - 1) := by positivity
  split
  · next hneg =>
    rw [← Int.add_mul_emod_self_left v (2 ^ w) 1, mul_one]
    exact Int.emod_eq_of_lt (by omega) (by omega)
  · next hpos =>
    exact Int.emod_eq_of_lt (by omega) (by omega)

theorem foldl_container (elem : ElemKind) (xs : List Int) (out : OStream) :
    xs.foldl (fun o item => o ++ insert_elem elem item ++ ['.']) out
      = out ++ (xs.map (fun item => insert_elem elem item ++ ['.'])).flatten := by
  induction xs generalizing out with
  | nil => simp
  | cons x xs ih =>
    rw [List.foldl_cons, ih, List.map_cons, List.flatten_cons]
    simp only [List.append_assoc]

theorem flatten_dot_eq_dotted (fields : List (List Char)) (h : fields ≠ []) :
    (fields.map (fun f => f ++ ['.'])).flatten = dotted fields ++ ['.'] := by
  induction fields with
  | nil => exact absurd rfl h
  | cons x xs ih =>
    cases xs with
    | nil => simp [dotted_singleton]
    | cons y ys =>
      rw [List.map_cons, List.flatten_cons, ih (by simp), dotted_cons_cons]
      simp

theorem resolve_vector (e : Bool) : resolve (.vector e) = some .container := rfl

theorem resolve_list (e : Bool) : resolve (.list e) = some .container := rfl

theorem resolve_tuple (n : Nat) (e : Bool) : resolve (.tuple n e) = some .tuple := rfl

theorem resolve_string : resolve .string = some .text := rfl

theorem print_ip_vector (elem : ElemKind) (xs : List Int) (out : OStream) :
    print_ip (.vector elem xs) out = some (print_ip_container elem xs out) := rfl

theorem print_ip_list (elem : ElemKind) (xs : List Int) (out : OStream) :
    print_ip (.list elem xs) out = some (print_ip_container elem xs out) := rfl

theorem print_ip_tuple_eq (xs : List (ElemKind × Int)) (out : OStream) :
    print_ip (.tuple xs) out = some (print_tuple xs out) := rfl

theorem print_ip_string (s : List Char) (out : OStream) :
    print_ip (.string s) out = some (out ++ s ++ ['\n']) := rfl

theorem print_ip_container_nonempty (elem : ElemKind) (xs : List Int) (h : xs ≠ [])
    (out : OStream) :
    print_ip_container elem xs out
      = out ++ dotted (xs.map (insert_elem elem)) ++ ['.', '\x08', ' ', '\x08', '\n'] := by
  rw [print_ip_container, foldl_container]
  have : xs.map (fun item => insert_elem elem item ++ ['.'])
      = (xs.map (insert_elem elem)).map (fun f => f ++ ['.']) := by simp
  rw [this, flatten_dot_eq_dotted _ (by simpa using h)]
  simp

theorem foldl_print_tuple_at (xs : List (ElemKind × Int)) (n : Nat) (hn : n ≤ xs.length)
    (out : OStream) :
    (List.range n).foldl (print_tuple_at xs) out
      = out ++ dotted ((xs.take n).map (fun e => insert_elem e.1 e.2)) := by
  induction n with
  | zero => simp [dotted_nil]
  | succ n ih =>
    have hlt : n < xs.length := hn
    rw [List.range_succ, List.foldl_append, ih (by omega), List.foldl_cons, List.foldl_nil,
      print_tuple_at, List.take_succ, List.map_append, List.getElem?_eq_getElem hlt]
    simp only [Option.toList, List.map_cons, List.map_nil]
    rw [dotted_concat, List.getD_eq_getElem _ _ hlt]
    cases n with
    | zero => simp
    | succ m =>
      have hxs : xs ≠ [] := by
        intro h0
        rw [h0] at hlt
        exact Nat.not_lt_zero _ hlt
      simp [hxs, List.append_assoc]

theorem print_tuple_eq (xs : List (ElemKind × Int)) (out : OStream) :
    print_tuple xs out = out ++ dotted (xs.map (fun e => insert_elem e.1 e.2)) ++ ['\n'] := by
  rw [print_tuple, print_tuple_seq, foldl_print_tuple_at xs xs.length (le_refl _), List.take_length]

theorem digitChar_isDigit (m : Nat) (h : m < 10) : (Nat.digitChar m).isDigit = true := by
  interval_cases m <;> rfl

theorem toDigitsCore_isDigit (fuel : Nat) : ∀ (n : Nat) (acc : List Char),
    (∀ c ∈ acc, c.isDigit = true) → ∀ c ∈ Nat.toDigitsCore 10 fuel n acc, c.isDigit = true := by
  induction fuel with
  | zero => intro n acc hacc c hc; exact hacc c (by simpa [Nat.toDigitsCore] using hc)
  | succ fuel ih =>
    intro n acc hacc c hc
    have hcons : ∀ c ∈ Nat.digitChar (n % 10) :: acc, c.isDigit = true := by
      intro c hc
      rcases List.mem_cons.mp hc with rfl | hc
      · exact digitChar_isDigit _ (Nat.mod_lt _ (by decide))
      · exact hacc c hc
    rw [Nat.toDigitsCore] at hc
    split at hc
    · exact hcons c hc
    · exact ih _ _ hcons c hc

theorem insert_unsigned_isDigit (n : Nat) : ∀ c ∈ insert_unsigned n, c.isDigit = true :=
  toDigitsCore_isDigit _ _ _ (by simp)

theorem newline_not_mem_insert_unsigned (n : Nat) : '\n' ∉ insert_unsigned n := by
  intro h
  exact absurd (insert_unsigned_isDigit n _ h) (by decide)

theorem newline_not_mem_insert_int (x : Int) : '\n' ∉ insert_int x := by
  cases x with
  | ofNat n => exact newline_not_mem_insert_unsigned n
  | negSucc n =>
    intro h
    rcases List.mem_cons.mp h with h | h
    · exact absurd h (by decide)
    · exact newline_not_mem_insert_unsigned _ h

theorem newline_not_mem_dotted (fields : List (List Char)) (h : ∀ f ∈ fields, '\n' ∉ f) :
    '\n' ∉ dotted fields := by
  induction fields with
  | nil => simp [dotted_nil]
  | cons x xs ih =>
    rw [dotted_cons]
    have hx := h x (by simp)
    have hxs := ih (fun f hf => h f (by simp [hf]))
    split <;> simp [hx, hxs]

theorem one_line_of_body (body : List Char) (h : '\n' ∉ body) :
    one_line (body ++ ['\n']) = true := by
  simp [one_line, List.count_append, List.count_eq_zero_of_not_mem h]

theorem resolve_of_flags (T : CppType) :
    resolve T = some (if is_container T then Overload.container
      else if is_tuple T then Overload.tuple
      else if has_c_str T then Overload.text else Overload.numeric) := by
  cases T with
  | other c t s => cases c <;> rfl
  | cv_const T =>
    cases h : has_c_str T
    · simp [resolve, candidates, enabled, is_container, is_tuple, has_c_str, h, tag_rank]
    · simp [resolve, candidates, enabled, is_container, is_tuple, has_c_str, h, tag_rank]
  | _ => rfl

theorem traits_exclusive (T : CppType) :
    ¬(is_container T = true ∧ is_tuple T = true)
      ∧ ¬(is_container T = true ∧ has_c_str T = true)
      ∧ ¬(is_tuple T = true ∧ has_c_str T = true) := by
  cases T <;> simp [is_container, is_tuple, has_c_str]

theorem char_ofNat_toNat (b : Nat) (hb : b < 256) : (Char.ofNat b).toNat = b := by
  have hv : b.isValidChar := Or.inl (by omega)
  simp only [Char.ofNat, dif_pos hv, Char.ofNatAux, Char.toNat]
  rfl

theorem newline_not_mem_insert_elem (elem : ElemKind) (v : Int)
    (h : writes_newline elem v = false) : '\n' ∉ insert_elem elem v := by
  cases elem with
  | number => exact newline_not_mem_insert_int v
  | character =>
    intro hmem
    have hc : '\n' = Char.ofNat (v % 256).toNat := by simpa [insert_elem] using hmem
    have h0 := Int.emod_nonneg v (by decide : (256 : Int) ≠ 0)
    have h1 := Int.emod_lt_of_pos v (by decide : (0 : Int) < 256)
    have hb : (v % 256).toNat < 256 := by omega
    have hn : (10 : Nat) = (v % 256).toNat := by
      have := congrArg Char.toNat hc
      rwa [char_ofNat_toNat _ hb] at this
    have h10 : v % 256 = 10 := by omega
    simp [writes_newline, h10] at h

theorem newline_not_mem_container_body (elem : ElemKind) (xs : List Int)
    (h : xs.all (fun x => !writes_newline elem x) = true) :
    '\n' ∉ (xs.map (fun item => insert_elem elem item ++ ['.'])).flatten := by
  induction xs with
  | nil => simp
  | cons x xs ih =>
    simp only [List.all_cons, Bool.and_eq_true, Bool.not_eq_true'] at h
    have hx := newline_not_mem_insert_elem elem x h.1
    simp only [List.map_cons, List.flatten_cons, List.mem_append, not_or]
    exact ⟨⟨hx, by decide⟩, ih h.2⟩

theorem print_ip_written (value : Value) (hs : one_line_input value = true) :
    ∃ body, '\n' ∉ body ∧ ∀ out, print_ip value out = some (out ++ (body ++ ['\n'])) := by
  cases value with
  | integral n sg v =>
    refine ⟨dotted (numeric_fields v n), ?_, fun out => ?_⟩
    · apply newline_not_mem_dotted
      intro f hf
      simp only [numeric_fields, List.mem_map] at hf
      obtain ⟨k, _, rfl⟩ := hf
      exact newline_not_mem_insert_unsigned _
    · rw [print_ip_integral, print_ip_numeric, print_ip_numeric_loop_eq, List.append_assoc]
  | string s =>
    refine ⟨s, ?_, fun out => by rw [print_ip_string, List.append_assoc]⟩
    simpa [one_line_input] using hs
  | vector elem xs =>
    refine ⟨(xs.map (fun item => insert_elem elem item ++ ['.'])).flatten
      ++ ['\x08', ' ', '\x08'], ?_, fun out => ?_⟩
    · have := newline_not_mem_container_body elem xs hs
      simp only [List.mem_append, not_or]
      exact ⟨this, by decide⟩
    · rw [print_ip_vector, print_ip_container, foldl_container]; simp
  | list elem xs =>
    refine ⟨(xs.map (fun item => insert_elem elem item ++ ['.'])).flatten
      ++ ['\x08', ' ', '\x08'], ?_, fun out => ?_⟩
    · have := newline_not_mem_container_body elem xs hs
      simp only [List.mem_append, not_or]
      exact ⟨this, by decide⟩
    · rw [print_ip_list, print_ip_container, foldl_container]; simp
  | tuple xs =>
    refine ⟨dotted (xs.map (fun e => insert_elem e.1 e.2)), ?_, fun out => ?_⟩
    · apply newline_not_mem_dotted
      intro f hf
      simp only [List.mem_map] at hf
      obtain ⟨e, he, rfl⟩ := hf
      apply newline_not_mem_insert_elem
      have hall : ∀ e ∈ xs, (!writes_newline e.1 e.2) = true := by
        simpa [one_line_input, List.all_eq_true] using hs
      simpa using hall e he
    · rw [print_ip_tuple_eq, print_tuple_eq, List.append_assoc]
  | other c text numeric => exact absurd hs (by simp [one_line_input])

theorem numeric_fields_eq_map (v : Int) (n : Nat) :
    numeric_fields v n = (numeric_bytes v n).map insert_unsigned := by
  simp [numeric_fields, numeric_bytes, List.map_map, Function.comp_def]

theorem numeric_byte_lt (v : Int) (i : Nat) : numeric_byte v i < 256 := by
  rw [numeric_byte_eq]
  have h1 := Int.emod_nonneg (v / 2 ^ (8 * (i - 1))) (by decide : (256 : Int) ≠ 0)
  have h2 := Int.emod_lt_of_pos (v / 2 ^ (8 * (i - 1))) (by decide : (0 : Int) < 256)
  omega

theorem print_ip_numeric_eq (n : Nat) (s : Bool) (v : Int) (out : OStream) :
    print_ip (.integral n s v) out
      = some (out ++ dotted ((numeric_bytes v n).map insert_unsigned) ++ ['\n']) := by
  rw [print_ip_integral, print_ip_numeric, print_ip_numeric_loop_eq, numeric_fields_eq_map]

theorem toDigitsCore_ne_nil (fuel : Nat) : ∀ (n : Nat) (acc : List Char),
    acc ≠ [] → Nat.toDigitsCore 10 fuel n acc ≠ [] := by
  induction fuel with
  | zero => intro n acc h; simpa [Nat.toDigitsCore] using h
  | succ fuel ih =>
    intro n acc _
    rw [Nat.toDigitsCore]
    split
    · simp
    · exact ih _ _ (by simp)

theorem insert_unsigned_ne_nil (n : Nat) : insert_unsigned n ≠ [] := by
  unfold insert_unsigned Nat.toDigits
  rw [Nat.toDigitsCore]
  split
  · simp
  · exact toDigitsCore_ne_nil _ _ _ (by simp)

theorem dot_not_mem_insert_unsigned (n : Nat) : '.' ∉ insert_unsigned n := by
  intro h
  exact absurd (insert_unsigned_isDigit n _ h) (by decide)

theorem dot_not_mem_insert_int (x : Int) : '.' ∉ insert_int x := by
  cases x with
  | ofNat n => exact dot_not_mem_insert_unsigned n
  | negSucc n =>
    intro h
    rcases List.mem_cons.mp h with h | h
    · exact absurd h (by decide)
    · exact dot_not_mem_insert_unsigned _ h

theorem count_dot_dotted (fields : List (List Char)) (h : ∀ f ∈ fields, '.' ∉ f) :
    (dotted fields).count '.' = fields.length - 1 := by
  induction fields with
  | nil => simp [dotted_nil]
  | cons x xs ih =>
    have hx : x.count '.' = 0 := List.count_eq_zero_of_not_mem (h x (by simp))
    cases xs with
    | nil => simp [dotted_singleton, hx]
    | cons y ys =>
      have := ih (fun f hf => h f (List.mem_cons_of_mem _ hf))
      rw [dotted_cons_cons, List.count_append, hx, List.count_cons_self, this]
      simp

theorem head?_dotted (x : List Char) (xs : List (List Char)) (hx : x ≠ []) :
    (dotted (x :: xs)).head? = x.head? := by
  rw [dotted_cons]
  cases x with
  | nil => exact absurd rfl hx
  | cons c cs => simp

theorem getLast?_dotted (xs : List (List Char)) (x : List Char) (hx : x ≠ []) :
    (dotted (xs ++ [x])).getLast? = x.getLast? := by
  rw [dotted_concat, List.getLast?_append_of_ne_nil _ hx]

theorem numeric_bytes_succ (v : Int) (n : Nat) :
    numeric_bytes v (n + 1) = numeric_byte v (n + 1) :: numeric_bytes v n := by
  simp [numeric_bytes, List.range_succ]

theorem numeric_bytes_snoc (v : Int) (n : Nat) :
    ∃ init, numeric_bytes v (n + 1) = init ++ [numeric_byte v 1] := by
  refine ⟨(List.range n).reverse.map (fun k => numeric_byte v (k + 1 + 1)), ?_⟩
  simp [numeric_bytes, List.range_succ_eq_map, List.map_map, Function.comp_def]

theorem digitChar_value (m : Nat) (h : m < 10) :
    (Nat.digitChar m).toNat - '0'.toNat = m := by
  interval_cases m <;> rfl

theorem read_decimal_concat (ds : List Char) (d : Char) :
    read_decimal (ds ++ [d]) = read_decimal ds * 10 + (d.toNat - '0'.toNat) := by
  simp [read_decimal, List.foldl_append]

theorem toDigitsCore_read (fuel n : Nat) (acc : List Char) (hfuel : n < fuel) :
    ∃ ds, Nat.toDigitsCore 10 fuel n acc = ds ++ acc ∧ read_decimal ds = n := by
  induction fuel generalizing n acc with
  | zero => omega
  | succ k ih =>
    have hd := digitChar_value (n % 10) (Nat.mod_lt _ (by decide))
    rw [Nat.toDigitsCore]
    split
    · next hsmall =>
      refine ⟨[Nat.digitChar (n % 10)], rfl, ?_⟩
      have hone := read_decimal_concat [] (Nat.digitChar (n % 10))
      simp only [List.nil_append] at hone
      rw [hone, hd]
      simp only [read_decimal, List.foldl_nil]
      omega
    · next hlarge =>
      have hlt : n / 10 < k := by omega
      obtain ⟨ds, hds, hread⟩ := ih (n / 10) (Nat.digitChar (n % 10) :: acc) hlt
      have happ : ds ++ Nat.digitChar (n % 10) :: acc
          = (ds ++ [Nat.digitChar (n % 10)]) ++ acc := by simp
      exact ⟨_, hds.trans happ, by rw [read_decimal_concat, hread, hd]; omega⟩

theorem read_decimal_insert_unsigned (n : Nat) : read_decimal (insert_unsigned n) = n := by
  obtain ⟨ds, hds, hread⟩ := toDigitsCore_read (n + 1) n [] (Nat.lt_succ_self n)
  unfold insert_unsigned Nat.toDigits
  rw [hds, List.append_nil, hread]

theorem splitOn_dotted (fields : List (List Char)) (h : ∀ f ∈ fields, '.' ∉ f)
    (hne : fields ≠ []) : (dotted fields).splitOn '.' = fields :=
  List.splitOn_intercalate fields '.' h hne

theorem line_of_unsigned (n v : Nat) :
    line_of (.integral n false (v : Int))
      = some (dotted ((bytes_be n v).map insert_unsigned)) := by
  rw [line_of, print_ip_integral, print_ip_numeric, print_ip_numeric_loop_eq,
    numeric_fields_natCast]
  simp

theorem bytes_be_ne_nil (n v : Nat) (hn : 0 < n) : bytes_be n v ≠ [] := by
  obtain ⟨m, rfl⟩ : ∃ m, n = m + 1 := ⟨n - 1, by omega⟩
  rw [bytes_be_succ]; simp

theorem decode_line_unsigned (n v : Nat) (hn : 0 < n) (hv : v < 256 ^ n) :
    decode_line (dotted ((bytes_be n v).map insert_unsigned)) = v := by
  rw [decode_line, splitOn_dotted]
  · rw [List.map_map]
    have : read_decimal ∘ insert_unsigned = id := by
      funext k; exact read_decimal_insert_unsigned k
    rw [this, List.map_id, from_bytes_be_bytes_be n v hv]
  · intro f hf
    simp only [List.mem_map] at hf
    obtain ⟨b, _, rfl⟩ := hf
    exact dot_not_mem_insert_unsigned b
  · simpa using bytes_be_ne_nil n v hn

theorem dotted_append (xs ys : List (List Char)) (hx : xs ≠ []) (hy : ys ≠ []) :
    dotted (xs ++ ys) = dotted xs ++ ['.'] ++ dotted ys := by
  induction xs with
  | nil => exact absurd rfl hx
  | cons x xs ih =>
    cases xs with
    | nil =>
      cases ys with
      | nil => exact absurd rfl hy
      | cons y ys => simp [dotted_cons_cons, dotted_singleton]
    | cons x₂ xs =>
      have := ih (by simp)
      rw [List.cons_append, List.cons_append, dotted_cons_cons, ← List.cons_append, this,
        dotted_cons_cons]
      simp

theorem byte_of_div (v n k : Nat) : byte_of (v / 256 ^ n) k = byte_of v (n + k) := by
  rw [byte_of, byte_of, Nat.div_div_eq_div_mul, pow_add]

theorem byte_of_mod (v n k : Nat) (hk : k < n) : byte_of (v % 256 ^ n) k = byte_of v k := by
  have hn : n = k + (1 + (n - k - 1)) := by omega
  have hp : 256 ^ n = 256 ^ k * (256 * 256 ^ (n - k - 1)) := by
    conv_lhs => rw [hn]
    rw [pow_add, pow_add, pow_one]
  rw [byte_of, byte_of, hp, Nat.mod_mul_right_div_self, Nat.mod_mul_right_mod]

theorem bytes_be_add (m n v : Nat) :
    bytes_be (m + n) v = bytes_be m (v / 256 ^ n) ++ bytes_be n (v % 256 ^ n) := by
  have hr : List.range (m + n) = List.range n ++ (List.range m).map (fun k => n + k) := by
    rw [Nat.add_comm m n, List.range_add]
  simp only [bytes_be, hr, List.reverse_append, List.map_append, List.map_reverse,
    List.map_map]
  congr 2
  · apply List.map_congr_left
    intro k _
    simp [byte_of_div]
  · apply List.map_congr_left
    intro k hk
    exact (byte_of_mod v n k (by simpa using hk)).symm

theorem line_of_split (m n v : Nat) (hm : 0 < m) (hn : 0 < n) :
    line_of (.integral (m + n) false (v : Int))
      = (line_of (.integral m false ((v / 256 ^ n : Nat) : Int))).bind (fun hi =>
          (line_of (.integral n false ((v % 256 ^ n : Nat) : Int))).map (fun lo =>
            hi ++ ['.'] ++ lo)) := by
  rw [line_of_unsigned, line_of_unsigned, line_of_unsigned, bytes_be_add, List.map_append,
    dotted_append]
  · rfl
  · simpa using bytes_be_ne_nil m _ hm
  · simpa using bytes_be_ne_nil n _ hn

/-! ## The claims -/

/-- C1: for every width `w` in 8, 16, 32, 64 and every unsigned `w`-bit value
`v`, `print_ip(v)` writes the `w / 8` bytes of `v` (numbers below 256 whose
big-endian base-256 value is `v`), most significant first, each as its
decimal numeral, joined by `'.'` and followed by one newline; and
`print_ip(uint32 3232235521)` writes `192.168.0.1` and a newline. -/
theorem print_ip_unsigned (w v : Nat) (hw : w = 8 ∨ w = 16 ∨ w = 32 ∨ w = 64)
    (hv : v < 2 ^ w) (out : OStream) :
    print_ip (.integral (w / 8) false (v : Int)) out
        = some (out ++ dotted ((bytes_be (w / 8) v).map insert_unsigned) ++ ['\n'])
      ∧ (bytes_be (w / 8) v).length = w / 8
      ∧ (∀ b ∈ bytes_be (w / 8) v, b < 256)
      ∧ from_bytes_be (bytes_be (w / 8) v) = v
      ∧ print_ip (.integral 4 false 3232235521) [] = some "192.168.0.1\n".toList := by
  refine ⟨?_, by simp [bytes_be], bytes_be_lt _ _, ?_, by decide⟩
  · rw [print_ip_integral, print_ip_numeric, print_ip_numeric_loop_eq, numeric_fields_natCast]
  · exact from_bytes_be_bytes_be _ _ (width_pow w hw ▸ hv)

/-- C1 at the 16-bit value 258. -/
theorem print_ip_unsigned_witness :
    print_ip (.integral (16 / 8) false ((258 : Nat) : Int)) []
        = some ([] ++ dotted ((bytes_be (16 / 8) 258).map insert_unsigned) ++ ['\n'])
      ∧ (bytes_be (16 / 8) 258).length = 16 / 8
      ∧ (∀ b ∈ bytes_be (16 / 8) 258, b < 256)
      ∧ from_bytes_be (bytes_be (16 / 8) 258) = 258
      ∧ print_ip (.integral 4 false 3232235521) [] = some "192.168.0.1\n".toList :=
  print_ip_unsigned 16 258 (by decide) (by decide) []

/-- C2: for every width `w` in 8, 16, 32, 64 and every signed `w`-bit value
`v`, `print_ip(v)` writes the same text as `print_ip` of the unsigned `w`-bit
value `v mod 2 ^ w`, the value with the same two's-complement bit pattern
(`v + 2 ^ w` for negative `v`, `v` itself otherwise); and `print_ip(int8 -1)`
writes `255` and a newline. -/
theorem print_ip_signed (w : Nat) (v : Int) (hw : w = 8 ∨ w = 16 ∨ w = 32 ∨ w = 64)
    (hv : -2 ^ (w - 1) ≤ v ∧ v < 2 ^ (w - 1)) (out : OStream) :
    print_ip (.integral (w / 8) true v) out
        = print_ip (.integral (w / 8) false (v % 2 ^ w)) out
      ∧ (v % 2 ^ w = if v < 0 then v + 2 ^ w else v)
      ∧ (0 ≤ v % 2 ^ w ∧ v % 2 ^ w < 2 ^ w)
      ∧ print_ip (.integral 1 true (-1)) [] = some "255\n".toList := by
  have hw8 : w = 8 * (w / 8) := by rcases hw with rfl | rfl | rfl | rfl <;> rfl
  have hpos : 0 < w := by omega
  refine ⟨?_, twos_complement_pattern w v hpos hv,
    ⟨Int.emod_nonneg _ (by positivity), Int.emod_lt_of_pos _ (by positivity)⟩, ?_⟩
  · rw [print_ip_integral, print_ip_integral, print_ip_numeric, print_ip_numeric,
      print_ip_numeric_loop_eq, print_ip_numeric_loop_eq]
    conv_rhs => rw [hw8, Nat.mul_div_cancel_left _ (by decide : 0 < 8), numeric_fields_emod]
  · rw [print_ip_integral, print_ip_numeric, print_ip_numeric_loop_eq,
      ← numeric_fields_emod (-1) 1]
    decide

/-- C2 at the 8-bit value -2. -/
theorem print_ip_signed_witness :
    print_ip (.integral (8 / 8) true (-2)) []
        = print_ip (.integral (8 / 8) false ((-2 : Int) % 2 ^ 8)) []
      ∧ ((-2 : Int) % 2 ^ 8 = if (-2 : Int) < 0 then (-2 : Int) + 2 ^ 8 else -2)
      ∧ (0 ≤ (-2 : Int) % 2 ^ 8 ∧ (-2 : Int) % 2 ^ 8 < 2 ^ 8)
      ∧ print_ip (.integral 1 true (-1)) [] = some "255\n".toList :=
  print_ip_signed 8 (-2) (by decide) (by decide) []

/-- C3 at `std::vector<int>{192, 168, 0, 1}`: the written characters are
`192.168.0.1.` followed by backspace, space, backspace and newline, not
`192.168.0.1` followed by a newline and nothing else; a single-element
sequence is followed by the same `'.'` and erase characters. The tuple path
and the numeric path write the same four fields with no trailing
separator. -/
theorem print_ip_sequence_not_joined :
    print_ip (.vector .number [192, 168, 0, 1]) [] = some "192.168.0.1.\x08 \x08\n".toList
      ∧ print_ip (.list .number [192, 168, 0, 1]) [] = some "192.168.0.1.\x08 \x08\n".toList
      ∧ print_ip (.vector .number [192, 168, 0, 1]) []
          ≠ some ([] ++ dotted ([192, 168, 0, 1].map insert_int) ++ ['\n'])
      ∧ print_ip (.vector .number [7]) [] = some "7.\x08 \x08\n".toList
      ∧ print_ip (.tuple [(.number, 192), (.number, 168), (.number, 0), (.number, 1)]) []
          = some "192.168.0.1\n".toList
      ∧ print_ip (.integral 4 false 3232235521) [] = some "192.168.0.1\n".toList := by
  decide

/-- C4 at an empty `std::vector<int>` and an empty `std::list<int>`: the
written characters are backspace, space, backspace, newline, not a newline
alone; after earlier output `x` the erase characters follow that `x`. The
tuple path writes a newline alone for the empty tuple. -/
theorem print_ip_empty_sequence_not_newline :
    print_ip (.vector .number []) [] = some "\x08 \x08\n".toList
      ∧ print_ip (.list .number []) [] = some "\x08 \x08\n".toList
      ∧ print_ip (.vector .number []) [] ≠ some ['\n']
      ∧ print_ip (.list .number []) [] ≠ some ['\n']
      ∧ print_ip (.vector .number []) ['x'] = some "x\x08 \x08\n".toList
      ∧ print_ip (.tuple []) [] = some ['\n'] := by
  decide

/-- C6: for every `std::string` `s`, `print_ip(s)` writes the characters of
`s` unchanged, followed by one newline; the text `192.168.0.1` is written as
`192.168.0.1` and a newline. -/
theorem print_ip_text_unchanged (s : List Char) (out : OStream) :
    print_ip (.string s) out = some (out ++ s ++ ['\n'])
      ∧ print_ip (.string "192.168.0.1".toList) [] = some "192.168.0.1\n".toList :=
  ⟨rfl, by decide⟩

/-- C7: text rendering is idempotent. For every `std::string` `s` the text
that `print_ip(s)` renders, the written line without its terminator, is `s`
itself, and rendering that text again as a text value yields the same text
and the same written output: re-rendering is a fixpoint. -/
theorem print_ip_text_idempotent (s : List Char) (out : OStream) :
    line_of (.string s) = some s
      ∧ (line_of (.string s)).bind (fun line => line_of (.string line))
          = line_of (.string s)
      ∧ (line_of (.string s)).bind (fun line => print_ip (.string line) out)
          = print_ip (.string s) out
      ∧ line_of (.string "192.168.0.1".toList) = some "192.168.0.1".toList := by
  have h : ∀ t : List Char, line_of (.string t) = some t := by
    intro t
    rw [line_of, print_ip_string]
    simp
  refine ⟨h s, ?_, ?_, h _⟩
  · rw [h s, Option.some_bind, h s]
  · rw [h s, Option.some_bind]

/-- C8, as stated, fails: `print_ip` of the three-character string `a`,
newline, `b` writes two newlines, and so does `print_ip` of
`std::vector<uint8_t>{10}`, whose element is written as the newline
character; neither output is one line. -/
theorem print_ip_text_two_lines :
    print_ip (.string ['a', '\n', 'b']) [] = some ['a', '\n', 'b', '\n']
      ∧ (print_ip (.string ['a', '\n', 'b']) []).map one_line = some false
      ∧ print_ip (.vector .character [10]) [] = some "\n.\x08 \x08\n".toList
      ∧ (print_ip (.vector .character [10]) []).map one_line = some false := by
  decide

/-- C8, amended: every call of `print_ip` on an integral value, on a
`std::string` that contains no newline character, or on a `std::vector`,
`std::list` or `std::tuple` of integers none of whose elements of a character
type has the value of the newline character, appends to the stream exactly
one line: the written output ends with a newline and contains no other
newline. -/
theorem print_ip_one_line (value : Value) (out : OStream)
    (hs : one_line_input value = true) :
    print_ip value out = (print_ip value []).map (fun written => out ++ written)
      ∧ (print_ip value []).map one_line = some true := by
  obtain ⟨body, hb, hw⟩ := print_ip_written value hs
  rw [hw out, hw []]
  simp [one_line_of_body body hb]

/-- C8 at `std::vector<uint8_t>{65, 66}`, written after the character `x`. -/
theorem print_ip_one_line_witness :
    print_ip (.vector .character [65, 66]) ['x']
        = (print_ip (.vector .character [65, 66]) []).map (fun written => ['x'] ++ written)
      ∧ (print_ip (.vector .character [65, 66]) []).map one_line = some true :=
  print_ip_one_line (.vector .character [65, 66]) ['x'] (by decide)

/-- C9: for every type for which both `value.c_str()` and the shift-and-mask
expression of the numeric body are well-formed, the call
`impl::print_ip(value, int{})` made by `otus::print_ip` has the text overload
(tag parameter `int`) and the numeric overload (tag parameter `long`) among
its viable candidates and selects the text overload, never the numeric one;
so a value of such a type is written as-is, the characters of
`std::cout << value` and a newline, and not byte-split. -/
theorem text_wins_over_numeric (T : CppType) (text : List Char) (n : Nat) (v : Int)
    (out : OStream) (hc : has_c_str T = true) (hn : body_ok .numeric T = true) :
    enabled T .text = true
      ∧ (enabled T .numeric && body_ok .numeric T) = true
      ∧ tag_rank .text < tag_rank .numeric
      ∧ resolve T = some .text ∧ resolve T ≠ some .numeric
      ∧ accepted T = body_ok .text T
      ∧ has_c_str (Value.type (.other true (some text) (some (n, v)))) = true
      ∧ body_ok .numeric (Value.type (.other true (some text) (some (n, v)))) = true
      ∧ print_ip (.other true (some text) (some (n, v))) out = some (out ++ text ++ ['\n'])
      ∧ print_ip (.other true (some "1.2.3.4".toList) (some (4, 7))) []
          = some "1.2.3.4\n".toList
      ∧ print_ip (.other false (some "1.2.3.4".toList) (some (4, 7))) []
          = some "0.0.0.7\n".toList := by
  have ht := (traits_exclusive T).2
  have h1 : is_container T = false := by
    cases h : is_container T
    · rfl
    · exact absurd ⟨h, hc⟩ ht.1
  have h2 : is_tuple T = false := by
    cases h : is_tuple T
    · rfl
    · exact absurd ⟨h, hc⟩ ht.2
  have hr : resolve T = some .text := by
    rw [resolve_of_flags, h1, h2, hc]; rfl
  refine ⟨hc, by rw [hn]; rfl, by decide, hr, ?_, ?_, rfl, rfl, rfl, by decide, by decide⟩
  · rw [hr]; decide
  · rw [accepted, hr]

/-- C9 at a class type with `c_str()`, a well-formed text body and a
well-formed shift-and-mask expression, and a value of it that is inserted as
`ab` and whose operators act on the 32-bit integer 7. -/
theorem text_wins_over_numeric_witness :
    enabled (.other true true true) .text = true
      ∧ (enabled (.other true true true) .numeric
          && body_ok .numeric (.other true true true)) = true
      ∧ tag_rank .text < tag_rank .numeric
      ∧ resolve (.other true true true) = some .text
      ∧ resolve (.other true true true) ≠ some .numeric
      ∧ accepted (.other true true true) = body_ok .text (.other true true true)
      ∧ has_c_str (Value.type (.other true (some ['a', 'b']) (some (4, 7)))) = true
      ∧ body_ok .numeric (Value.type (.other true (some ['a', 'b']) (some (4, 7)))) = true
      ∧ print_ip (.other true (some ['a', 'b']) (some (4, 7))) []
          = some ([] ++ ['a', 'b'] ++ ['\n'])
      ∧ print_ip (.other true (some "1.2.3.4".toList) (some (4, 7))) []
          = some "1.2.3.4\n".toList
      ∧ print_ip (.other false (some "1.2.3.4".toList) (some (4, 7))) []
          = some "0.0.0.7\n".toList :=
  text_wins_over_numeric (.other true true true) ['a', 'b'] 4 7 [] rfl rfl

/-- C10: classification is total and mutually exclusive. For every type the
call `impl::print_ip(value, int{})` selects exactly one overload; no type
enables two of the three `int`-tagged candidates (`is_container`, `is_tuple`,
`c_str`); the sequence overload is selected exactly for `std::vector` and
`std::list`, the tuple overload exactly for `std::tuple`, the text overload
exactly for the types with `c_str()`, and the numeric overload exactly when
none of the three is enabled; so every accepted type is rendered by exactly
one rule, a value is rendered exactly when its type is accepted, and every
value of the four categories is rendered. -/
theorem classification_total_exclusive (T : CppType) :
    (∃ f, resolve T = some f ∧ ∀ g, resolve T = some g → g = f)
      ∧ (¬(is_container T = true ∧ is_tuple T = true)
          ∧ ¬(is_container T = true ∧ has_c_str T = true)
          ∧ ¬(is_tuple T = true ∧ has_c_str T = true))
      ∧ (resolve T = some .container ↔ ∃ e, T = .vector e ∨ T = .list e)
      ∧ (resolve T = some .tuple ↔ ∃ n e, T = .tuple n e)
      ∧ (resolve T = some .text ↔ has_c_str T = true)
      ∧ (resolve T = some .numeric
          ↔ is_container T = false ∧ is_tuple T = false ∧ has_c_str T = false)
      ∧ (accepted T = true → ∃ f, resolve T = some f ∧ body_ok f T = true
          ∧ ∀ g, resolve T = some g → g = f)
      ∧ (∀ (value : Value) (out : OStream),
          (print_ip value out).isSome = accepted value.type)
      ∧ (∀ (value : Value) (out : OStream), (∀ c text numeric, value ≠ .other c text numeric)
          → (print_ip value out).isSome = true) := by
  refine ⟨?_, traits_exclusive T, ?_, ?_, ?_, ?_, ?_, ?_, ?_⟩
  · rw [resolve_of_flags]
    exact ⟨_, rfl, fun g hg => (Option.some.inj hg).symm⟩
  · cases T with
    | other c t s => cases c <;> simp [resolve_of_flags, is_container, is_tuple, has_c_str]
    | cv_const T =>
      cases h : has_c_str T <;> simp [resolve_of_flags, is_container, is_tuple, has_c_str, h]
    | _ => simp [resolve_of_flags, is_container, is_tuple, has_c_str]
  · cases T with
    | other c t s => cases c <;> simp [resolve_of_flags, is_container, is_tuple, has_c_str]
    | cv_const T =>
      cases h : has_c_str T <;> simp [resolve_of_flags, is_container, is_tuple, has_c_str, h]
    | _ => simp [resolve_of_flags, is_container, is_tuple, has_c_str]
  · cases T with
    | other c t s => cases c <;> simp [resolve_of_flags, is_container, is_tuple, has_c_str]
    | cv_const T =>
      cases h : has_c_str T <;> simp [resolve_of_flags, is_container, is_tuple, has_c_str, h]
    | _ => simp [resolve_of_flags, is_container, is_tuple, has_c_str]
  · cases T with
    | other c t s => cases c <;> simp [resolve_of_flags, is_container, is_tuple, has_c_str]
    | cv_const T =>
      cases h : has_c_str T <;> simp [resolve_of_flags, is_container, is_tuple, has_c_str, h]
    | _ => simp [resolve_of_flags, is_container, is_tuple, has_c_str]
  · intro ha
    rw [accepted] at ha
    cases hr : resolve T with
    | none => rw [hr] at ha; exact absurd ha Bool.false_ne_true
    | some f =>
      rw [hr] at ha
      exact ⟨f, rfl, ha, fun g hg => (Option.some.inj hg).symm⟩
  · intro value out
    cases value with
    | other c text numeric =>
      cases c <;> cases text <;> cases numeric <;> rfl
    | _ => rfl
  · intro value out hv
    cases value with
    | other c text numeric => exact absurd rfl (hv c text numeric)
    | _ => rfl


/-- C12: for every integral value of `n` bytes, `n` in 1, 2, 4, 8, the line
written by the numeric `print_ip` consists of exactly `n` decimal fields, each
the numeral of a number below 256, with a `'.'` between neighbours only: the
line contains exactly `n - 1` dots and starts and ends with a digit, and a
zero byte is written as `0`, as in `0.0.0.1` for the 32-bit value 1. -/
theorem numeric_line_shape (n : Nat) (hn : n = 1 ∨ n = 2 ∨ n = 4 ∨ n = 8) (s : Bool)
    (v : Int) (out : OStream) :
    print_ip (.integral n s v) out
        = some (out ++ dotted ((numeric_bytes v n).map insert_unsigned) ++ ['\n'])
      ∧ (numeric_bytes v n).length = n
      ∧ (∀ b ∈ numeric_bytes v n, b < 256)
      ∧ (dotted ((numeric_bytes v n).map insert_unsigned)).count '.' = n - 1
      ∧ (dotted ((numeric_bytes v n).map insert_unsigned)).head?.map Char.isDigit = some true
      ∧ (dotted ((numeric_bytes v n).map insert_unsigned)).getLast?.map Char.isDigit
          = some true
      ∧ insert_unsigned 0 = ['0']
      ∧ print_ip (.integral 4 false 1) [] = some "0.0.0.1\n".toList := by
  obtain ⟨m, rfl⟩ : ∃ m, n = m + 1 := ⟨n - 1, by omega⟩
  refine ⟨print_ip_numeric_eq _ s v out, by simp [numeric_bytes], ?_, ?_, ?_, ?_, by decide,
    by decide⟩
  · intro b hb
    simp only [numeric_bytes, List.mem_map] at hb
    obtain ⟨k, _, rfl⟩ := hb
    exact numeric_byte_lt _ _
  · rw [count_dot_dotted]
    · simp [numeric_bytes]
    · intro f hf
      simp only [List.mem_map] at hf
      obtain ⟨b, _, rfl⟩ := hf
      exact dot_not_mem_insert_unsigned b
  · rw [numeric_bytes_succ, List.map_cons, head?_dotted _ _ (insert_unsigned_ne_nil _)]
    cases hd : insert_unsigned (numeric_byte v (m + 1)) with
    | nil => exact absurd hd (insert_unsigned_ne_nil _)
    | cons c cs =>
      have := insert_unsigned_isDigit (numeric_byte v (m + 1)) c (by rw [hd]; simp)
      simp [this]
  · obtain ⟨init, hinit⟩ := numeric_bytes_snoc v m
    rw [hinit, List.map_append, List.map_cons, List.map_nil,
      getLast?_dotted _ _ (insert_unsigned_ne_nil _)]
    cases hl : (insert_unsigned (numeric_byte v 1)).getLast? with
    | none => exact absurd (List.getLast?_eq_none_iff.mp hl) (insert_unsigned_ne_nil _)
    | some c =>
      have := insert_unsigned_isDigit (numeric_byte v 1) c (List.mem_of_getLast?_eq_some hl)
      simp [this]

/-- C12 at the 16-bit value 7. -/
theorem numeric_line_shape_witness :
    print_ip (.integral 2 false 7) []
        = some ([] ++ dotted ((numeric_bytes 7 2).map insert_unsigned) ++ ['\n'])
      ∧ (numeric_bytes 7 2).length = 2
      ∧ (∀ b ∈ numeric_bytes 7 2, b < 256)
      ∧ (dotted ((numeric_bytes 7 2).map insert_unsigned)).count '.' = 2 - 1
      ∧ (dotted ((numeric_bytes 7 2).map insert_unsigned)).head?.map Char.isDigit = some true
      ∧ (dotted ((numeric_bytes 7 2).map insert_unsigned)).getLast?.map Char.isDigit
          = some true
      ∧ insert_unsigned 0 = ['0']
      ∧ print_ip (.integral 4 false 1) [] = some "0.0.0.1\n".toList :=
  numeric_line_shape 2 (by decide) false 7 []


/-- C13: elements of aggregates are never byte-split. For every 32-bit
integer `v`, `print_ip` of the one-element tuple `(v)` and of the one-element
vector `[v]` write the full decimal numeral of `v`, which contains no `'.'`,
whereas the top-level `print_ip(v)` writes four byte fields separated by
three dots; so the rendering of the tuple `(v)` differs from the top-level
rendering of `v` for every `v`. -/
theorem aggregate_elements_not_split (v : Int) (s : Bool) (out : OStream) :
    print_ip (.tuple [(.number, v)]) out = some (out ++ insert_int v ++ ['\n'])
      ∧ print_ip (.vector .number [v]) out
          = some (out ++ insert_int v ++ ['.', '\x08', ' ', '\x08', '\n'])
      ∧ '.' ∉ insert_int v
      ∧ print_ip (.integral 4 s v) out
          = some (out ++ dotted ((numeric_bytes v 4).map insert_unsigned) ++ ['\n'])
      ∧ (numeric_bytes v 4).length = 4
      ∧ (dotted ((numeric_bytes v 4).map insert_unsigned)).count '.' = 3
      ∧ print_ip (.tuple [(.number, v)]) out ≠ print_ip (.integral 4 s v) out
      ∧ print_ip (.tuple [(.number, 3232235521)]) [] = some "3232235521\n".toList
      ∧ print_ip (.integral 4 false 3232235521) [] = some "192.168.0.1\n".toList := by
  have htup : print_ip (.tuple [(.number, v)]) out
      = some (out ++ insert_int v ++ ['\n']) := by
    rw [print_ip_tuple_eq, print_tuple_eq]
    simp [dotted_singleton, insert_elem]
  have hcount : (dotted ((numeric_bytes v 4).map insert_unsigned)).count '.' = 3 := by
    rw [count_dot_dotted]
    · simp [numeric_bytes]
    · intro f hf
      simp only [List.mem_map] at hf
      obtain ⟨b, _, rfl⟩ := hf
      exact dot_not_mem_insert_unsigned b
  refine ⟨htup, ?_, dot_not_mem_insert_int v, print_ip_numeric_eq 4 s v out,
    by simp [numeric_bytes], hcount, ?_, by decide, by decide⟩
  · rw [print_ip_vector, print_ip_container_nonempty .number [v] (by simp)]
    simp [dotted_singleton, insert_elem]
  · rw [htup, print_ip_numeric_eq 4 s v out]
    intro h
    have h' := congrArg (fun o => (o.getD []).count '.') h
    simp only [Option.getD_some, List.count_append, hcount,
      List.count_eq_zero_of_not_mem (dot_not_mem_insert_int v)] at h'
    simp at h'

/-- C15: numeric rendering is lossless for a fixed width. For every width `w`
in 8, 16, 32, 64 and every unsigned `w`-bit `v`, the line written by
`print_ip(v)` splits at `'.'` into `w / 8` fields, and reading these as
decimal numbers `b_1 .. b_n` and forming `b_1 * 256 ^ (n - 1) + ... + b_n`
gives back `v`; so two different values of the same width are never written
as the same text. -/
theorem numeric_rendering_lossless (w v v₂ : Nat) (hw : w = 8 ∨ w = 16 ∨ w = 32 ∨ w = 64)
    (hv : v < 2 ^ w) (hv₂ : v₂ < 2 ^ w) (hne : v ≠ v₂) :
    (line_of (.integral (w / 8) false (v : Int))).map decode_line = some v
      ∧ (line_of (.integral (w / 8) false (v : Int))).map
          (fun line => (line.splitOn '.').length) = some (w / 8)
      ∧ print_ip (.integral (w / 8) false (v : Int)) []
          ≠ print_ip (.integral (w / 8) false (v₂ : Int)) [] := by
  have hn : 0 < w / 8 := by rcases hw with rfl | rfl | rfl | rfl <;> decide
  have hp := width_pow w hw
  have h1 : (line_of (.integral (w / 8) false (v : Int))).map decode_line = some v := by
    rw [line_of_unsigned, Option.map_some', decode_line_unsigned _ _ hn (hp ▸ hv)]
  have h2 : (line_of (.integral (w / 8) false (v₂ : Int))).map decode_line = some v₂ := by
    rw [line_of_unsigned, Option.map_some', decode_line_unsigned _ _ hn (hp ▸ hv₂)]
  refine ⟨h1, ?_, ?_⟩
  · rw [line_of_unsigned, Option.map_some', splitOn_dotted]
    · simp [bytes_be]
    · intro f hf
      simp only [List.mem_map] at hf
      obtain ⟨b, _, rfl⟩ := hf
      exact dot_not_mem_insert_unsigned b
    · simpa using bytes_be_ne_nil _ v hn
  · intro heq
    rw [line_of, heq] at h1
    rw [line_of, h1] at h2
    exact hne (Option.some.inj h2)

/-- C15 at the 16-bit values 258 and 513. -/
theorem numeric_rendering_lossless_witness :
    (line_of (.integral (16 / 8) false ((258 : Nat) : Int))).map decode_line = some 258
      ∧ (line_of (.integral (16 / 8) false ((258 : Nat) : Int))).map
          (fun line => (line.splitOn '.').length) = some (16 / 8)
      ∧ print_ip (.integral (16 / 8) false ((258 : Nat) : Int)) []
          ≠ print_ip (.integral (16 / 8) false ((513 : Nat) : Int)) [] :=
  numeric_rendering_lossless 16 258 513 (by decide) (by decide) (by decide) (by decide)


/-- C16: numeric rendering is compatible across widths. For every unsigned
32-bit `v` the line written by `print_ip(v)`, without its newline, is the
line of the 16-bit value `v >> 16`, then `'.'`, then the line of the 16-bit
value `v & 0xFFFF`; a 64-bit value renders as the line of its high 32 bits,
`'.'` and the line of its low 32 bits, and a 16-bit value as the lines of its
high and low byte joined by `'.'`. -/
theorem numeric_rendering_across_widths (v₁₆ v₃₂ v₆₄ : Nat) (h₁₆ : v₁₆ < 2 ^ 16)
    (h₃₂ : v₃₂ < 2 ^ 32) (h₆₄ : v₆₄ < 2 ^ 64) :
    (line_of (.integral 4 false (v₃₂ : Int))
        = (line_of (.integral 2 false ((v₃₂ >>> 16 : Nat) : Int))).bind (fun hi =>
            (line_of (.integral 2 false ((v₃₂ &&& 0xFFFF : Nat) : Int))).map (fun lo =>
              hi ++ ['.'] ++ lo)))
      ∧ (line_of (.integral 8 false (v₆₄ : Int))
        = (line_of (.integral 4 false ((v₆₄ >>> 32 : Nat) : Int))).bind (fun hi =>
            (line_of (.integral 4 false ((v₆₄ &&& 0xFFFFFFFF : Nat) : Int))).map (fun lo =>
              hi ++ ['.'] ++ lo)))
      ∧ (line_of (.integral 2 false (v₁₆ : Int))
        = (line_of (.integral 1 false ((v₁₆ >>> 8 : Nat) : Int))).bind (fun hi =>
            (line_of (.integral 1 false ((v₁₆ &&& 0xFF : Nat) : Int))).map (fun lo =>
              hi ++ ['.'] ++ lo)))
      ∧ (v₃₂ >>> 16 < 2 ^ 16 ∧ v₃₂ &&& 0xFFFF < 2 ^ 16)
      ∧ (v₆₄ >>> 32 < 2 ^ 32 ∧ v₆₄ &&& 0xFFFFFFFF < 2 ^ 32)
      ∧ (v₁₆ >>> 8 < 2 ^ 8 ∧ v₁₆ &&& 0xFF < 2 ^ 8) := by
  have e16 : v₃₂ &&& 0xFFFF = v₃₂ % 256 ^ 2 := Nat.and_pow_two_sub_one_eq_mod v₃₂ 16
  have e32 : v₆₄ &&& 0xFFFFFFFF = v₆₄ % 256 ^ 4 := Nat.and_pow_two_sub_one_eq_mod v₆₄ 32
  have e8 : v₁₆ &&& 0xFF = v₁₆ % 256 ^ 1 := Nat.and_pow_two_sub_one_eq_mod v₁₆ 8
  have s16 : v₃₂ >>> 16 = v₃₂ / 256 ^ 2 := Nat.shiftRight_eq_div_pow v₃₂ 16
  have s32 : v₆₄ >>> 32 = v₆₄ / 256 ^ 4 := Nat.shiftRight_eq_div_pow v₆₄ 32
  have s8 : v₁₆ >>> 8 = v₁₆ / 256 ^ 1 := Nat.shiftRight_eq_div_pow v₁₆ 8
  refine ⟨?_, ?_, ?_, ⟨?_, ?_⟩, ⟨?_, ?_⟩, ⟨?_, ?_⟩⟩
  · rw [e16, s16]; exact line_of_split 2 2 v₃₂ (by decide) (by decide)
  · rw [e32, s32]; exact line_of_split 4 4 v₆₄ (by decide) (by decide)
  · rw [e8, s8]; exact line_of_split 1 1 v₁₆ (by decide) (by decide)
  · rw [s16]; omega
  · rw [e16]; omega
  · rw [s32]; omega
  · rw [e32]; omega
  · rw [s8]; omega
  · rw [e8]; omega

/-- C16 at the values 0x0102, 0xC0A80001 and 0x0102030405060708. -/
theorem numeric_rendering_across_widths_witness :
    (line_of (.integral 4 false ((3232235521 : Nat) : Int))
        = (line_of (.integral 2 false ((3232235521 >>> 16 : Nat) : Int))).bind (fun hi =>
            (line_of (.integral 2 false ((3232235521 &&& 0xFFFF : Nat) : Int))).map
              (fun lo => hi ++ ['.'] ++ lo)))
      ∧ (line_of (.integral 8 false ((72623859790382856 : Nat) : Int))
        = (line_of (.integral 4 false ((72623859790382856 >>> 32 : Nat) : Int))).bind
            (fun hi =>
              (line_of (.integral 4 false
                ((72623859790382856 &&& 0xFFFFFFFF : Nat) : Int))).map
                (fun lo => hi ++ ['.'] ++ lo)))
      ∧ (line_of (.integral 2 false ((258 : Nat) : Int))
        = (line_of (.integral 1 false ((258 >>> 8 : Nat) : Int))).bind (fun hi =>
            (line_of (.integral 1 false ((258 &&& 0xFF : Nat) : Int))).map (fun lo =>
              hi ++ ['.'] ++ lo)))
      ∧ (3232235521 >>> 16 < 2 ^ 16 ∧ 3232235521 &&& 0xFFFF < 2 ^ 16)
      ∧ (72623859790382856 >>> 32 < 2 ^ 32 ∧ 72623859790382856 &&& 0xFFFFFFFF < 2 ^ 32)
      ∧ (258 >>> 8 < 2 ^ 8 ∧ 258 &&& 0xFF < 2 ^ 8) :=
  numeric_rendering_across_widths 258 3232235521 72623859790382856 (by decide) (by decide)
    (by decide)

end otus
